import Mathlib

/-!
Verification of the RFM customer-segmentation pipeline (`online_retail.py`).

The script is a linear batch pipeline over an in-memory table:
clean (lines 12-26), reference date (line 31), RFM aggregation (lines 36-46),
quintile scoring (lines 51-56), segmentation (lines 61-74).

Modelling conventions:
* CSV cells that `pd.to_numeric(errors=coerce)` turns into numbers-or-NaN are
  modelled as `Option ℚ` (`none` covers both a missing cell and a failed
  coercion; both are dropped by the same `dropna`).
* The raw `InvoiceDate` cell has three relevant states: missing, present but
  unparsable by `pd.to_datetime(errors=coerce)`, and parsable.  It is
  modelled as `Option (Option ℤ)`: the outer `none` is a missing cell (dropped
  by `dropna`), `some none` is a present but unparsable string (kept by
  `dropna`, turned into `NaT` by `to_datetime`), `some (some t)` parses to the
  timestamp `t`, measured in whole seconds.  `pd.Timedelta(days=1)` is
  86400 seconds and `Timedelta.days` is floor division by 86400.
* Float columns are modelled by exact rationals `ℚ`.
* The real frame carries further columns (StockCode, Description, Country)
  that only matter for `drop_duplicates`; they are represented by the single
  `description` field.
-/

set_option linter.unusedVariables false

namespace OnlineRetail

/-- Model of `DataFrame.drop_duplicates()` (keep first): the list of first
occurrences of each distinct row, in order of first appearance. -/
def dedupFirst {α : Type} [DecidableEq α] : List α → List α
  | [] => []
  | a :: l => a :: (dedupFirst l).filter (fun b => b ≠ a)

theorem dedupFirst_nil {α : Type} [DecidableEq α] : dedupFirst ([] : List α) = [] := rfl

theorem dedupFirst_cons {α : Type} [DecidableEq α] (a : α) (l : List α) :
    dedupFirst (a :: l) = a :: (dedupFirst l).filter (fun b => b ≠ a) := rfl

theorem mem_dedupFirst {α : Type} [DecidableEq α] {a : α} :
    ∀ {l : List α}, a ∈ dedupFirst l ↔ a ∈ l := by
  intro l
  induction l with
  | nil => simp [dedupFirst]
  | cons b l ih =>
    by_cases hab : a = b
    · subst hab
      simp [dedupFirst]
    · simp [dedupFirst, List.mem_filter, hab, ih]

theorem nodup_dedupFirst {α : Type} [DecidableEq α] :
    ∀ (l : List α), (dedupFirst l).Nodup := by
  intro l
  induction l with
  | nil => simp [dedupFirst]
  | cons b l ih =>
    refine List.Nodup.cons ?_ (List.Nodup.filter _ ih)
    intro hb
    have := (List.mem_filter.mp hb).2
    simp at this

theorem dedupFirst_eq_self {α : Type} [DecidableEq α] :
    ∀ {l : List α}, l.Nodup → dedupFirst l = l := by
  intro l
  induction l with
  | nil => simp [dedupFirst]
  | cons b l ih =>
    intro h
    rcases List.nodup_cons.mp h with ⟨hb, hl⟩
    rw [dedupFirst, ih hl, List.filter_eq_self.mpr]
    intro a ha
    simp only [ne_eq, decide_eq_true_eq]
    exact fun hab => hb (hab ▸ ha)

theorem length_dedupFirst_le {α : Type} [DecidableEq α] :
    ∀ (l : List α), (dedupFirst l).length ≤ l.length := by
  intro l
  induction l with
  | nil => simp [dedupFirst]
  | cons b l ih =>
    simp only [dedupFirst, List.length_cons]
    have := List.length_filter_le (fun b' => decide (b' ≠ b)) (dedupFirst l)
    omega

theorem dedupFirst_filter {α : Type} [DecidableEq α] (p : α → Bool) :
    ∀ (l : List α), (dedupFirst l).filter p = dedupFirst (l.filter p) := by
  intro l
  induction l with
  | nil => simp [dedupFirst]
  | cons b l ih =>
    by_cases hb : p b
    · rw [dedupFirst_cons, List.filter_cons_of_pos hb, List.filter_comm, ih,
        List.filter_cons_of_pos hb, dedupFirst_cons]
    · rw [dedupFirst_cons, List.filter_cons_of_neg hb, List.filter_comm, ih,
        List.filter_cons_of_neg hb, List.filter_eq_self.mpr]
      intro a ha
      have ha' : a ∈ l.filter p := mem_dedupFirst.mp ha
      have hpa : p a := (List.mem_filter.mp ha').2
      simp only [ne_eq, decide_eq_true_eq]
      intro hab
      rw [hab] at hpa
      exact hb hpa

theorem dedupFirst_map_inj {α β : Type} [DecidableEq α] [DecidableEq β]
    {f : α → β} (hf : Function.Injective f) :
    ∀ (l : List α), dedupFirst (l.map f) = (dedupFirst l).map f := by
  intro l
  induction l with
  | nil => simp [dedupFirst]
  | cons b l ih =>
    rw [List.map_cons, dedupFirst_cons, dedupFirst_cons, ih, List.map_cons,
      List.filter_map]
    congr 1
    congr 1
    apply List.filter_congr
    intro a _
    simp only [Function.comp_apply, ne_eq, decide_eq_decide]
    exact not_congr ⟨fun h => hf h, fun h => h ▸ rfl⟩

/-- Raw input record (one CSV row after the `pd.to_numeric` coercions of
lines 14-16 are understood as producing number-or-NaN cells). -/
structure RawTxn where
  invoiceNo : String
  description : String
  customerId : Option ℚ
  quantity : Option ℚ
  unitPrice : Option ℚ
  invoiceDate : Option (Option ℤ)
deriving DecidableEq

/-- Record after `dropna`, `astype(int)` and `to_datetime` (lines 18-21):
numeric fields are present, the customer id is an integer, the parsed
timestamp may still be `NaT` (`none`). -/
structure CoTxn where
  invoiceNo : String
  description : String
  customerId : ℤ
  quantity : ℚ
  unitPrice : ℚ
  invoiceDate : Option ℤ
deriving DecidableEq

/-- Fully cleaned record, with the `TotalPrice` column of line 26. -/
structure CleanTxn where
  invoiceNo : String
  description : String
  customerId : ℤ
  quantity : ℚ
  unitPrice : ℚ
  invoiceDate : Option ℤ
  totalPrice : ℚ
deriving DecidableEq

/-- Truncation toward zero, as `astype(int)` on a float column: computed as
the truncating integer division of a rational's numerator by its denominator. -/
def truncQ (q : ℚ) : ℤ := Int.tdiv q.num (q.den : ℤ)

/-- The `dropna(subset=[CustomerID, Quantity, UnitPrice, InvoiceDate])` of
line 18; note it runs on the raw `InvoiceDate` strings, before parsing. -/
def dropnaRow (t : RawTxn) : Bool :=
  t.customerId.isSome && t.quantity.isSome && t.unitPrice.isSome && t.invoiceDate.isSome

/-- Lines 20-21: `CustomerID.astype(int)` and
`to_datetime(InvoiceDate, errors:=coerce)` (unparsable becomes `NaT`). -/
def coerceRow (t : RawTxn) : CoTxn :=
  { invoiceNo := t.invoiceNo
    description := t.description
    customerId := truncQ (t.customerId.getD 0)
    quantity := t.quantity.getD 0
    unitPrice := t.unitPrice.getD 0
    invoiceDate := t.invoiceDate.join }

/-- Does the invoice identifier start with the one-character cancellation
marker `C`?  Models `InvoiceNo.astype(str).str.startswith("C")`; since the
marker is a single character this is a check on the first character. -/
def isCancelInvoice (s : String) : Bool := s.data.head? = some ('C')

/-- Line 23: keep rows whose `InvoiceNo` does not start with the cancellation
marker `C`. -/
def notCancelled (t : CoTxn) : Bool := !(isCancelInvoice t.invoiceNo)

/-- Line 24: keep rows with strictly positive quantity and unit price. -/
def posQtyPrice (t : CoTxn) : Bool := decide (0 < t.quantity) && decide (0 < t.unitPrice)

/-- Line 26: derive the `TotalPrice` column. -/
def addTotal (t : CoTxn) : CleanTxn :=
  { invoiceNo := t.invoiceNo
    description := t.description
    customerId := t.customerId
    quantity := t.quantity
    unitPrice := t.unitPrice
    invoiceDate := t.invoiceDate
    totalPrice := t.quantity * t.unitPrice }

/-- Step 1 (lines 12-26): drop duplicates, drop rows with missing
CustomerID/Quantity/UnitPrice/InvoiceDate, truncate the customer id to an
integer, parse the timestamp (unparsable becomes `NaT`), drop cancellations,
drop non-positive quantities and prices, and derive `TotalPrice`. -/
def clean (raws : List RawTxn) : List CleanTxn :=
  (((((dedupFirst raws).filter dropnaRow).map coerceRow).filter notCancelled).filter
      posQtyPrice).map addTotal

/-- Step 5 (lines 61-72): the per-row segment rule, an ordered if-chain on the
recency and frequency scores; the monetary score `m` is read but never used. -/
def segment_customer (r f m : ℕ) : String :=
  if r ≥ 4 ∧ f ≥ 4 then ("Champions")
  else if r ≥ 3 ∧ f ≥ 3 then ("Loyal Customers")
  else if r ≥ 3 ∧ f ≤ 2 then ("Potential Loyalist")
  else if r ≤ 2 ∧ f ≥ 3 then ("At Risk")
  else ("Others")

/-- Modelled from the spec, section 4.4: the ordered decision list for the
classifier, first matching rule wins.  Used to compare the code's
`segment_customer` against the spec's rule list. -/
def segmentSpecRules (r f m : ℕ) : String :=
  if r ≥ 4 ∧ f ≥ 4 then ("Champions")
  else if r ≥ 3 ∧ f ≥ 3 then ("Loyal Customers")
  else if r ≥ 3 ∧ f ≤ 2 then ("Potential Loyalist")
  else if r ≤ 2 ∧ f ≥ 3 then ("At Risk")
  else ("Others")

/-- The five segment labels. -/
def segmentLabels : List String :=
  [("Champions"), ("Loyal Customers"), ("Potential Loyalist"), ("At Risk"), ("Others")]

theorem segment_customer_mem_labels (r f m : ℕ) :
    segment_customer r f m ∈ segmentLabels := by
  unfold segment_customer segmentLabels
  split_ifs <;> simp

theorem truncQ_intCast (z : ℤ) : truncQ ((z : ℚ)) = z := by
  unfold truncQ
  simp [Int.tdiv_one]

/-- The invariant established by the Cleaner for every surviving record,
together with its provenance: it stems from a raw record whose customer id
and (raw) timestamp cell were non-null, and its parsed timestamp is exactly
the (possibly failed, hence `none`) parse of that cell. -/
theorem clean_mem_spec {raws : List RawTxn} {c : CleanTxn} (hc : c ∈ clean raws) :
    0 < c.quantity ∧ 0 < c.unitPrice ∧ isCancelInvoice c.invoiceNo = false ∧
      c.totalPrice = c.quantity * c.unitPrice ∧
      ∃ r ∈ raws, r.invoiceDate ≠ none ∧ r.customerId ≠ none ∧
        c.invoiceDate = r.invoiceDate.join ∧ c.customerId = truncQ (r.customerId.getD 0) := by
  unfold clean at hc
  rw [List.mem_map] at hc
  obtain ⟨t, ht, rfl⟩ := hc
  rw [List.mem_filter] at ht
  obtain ⟨ht, hpos⟩ := ht
  rw [List.mem_filter] at ht
  obtain ⟨ht, hcanc⟩ := ht
  rw [List.mem_map] at ht
  obtain ⟨u, hu, rfl⟩ := ht
  rw [List.mem_filter] at hu
  obtain ⟨hu, hna⟩ := hu
  rw [mem_dedupFirst] at hu
  unfold posQtyPrice at hpos
  unfold notCancelled at hcanc
  unfold dropnaRow at hna
  simp only [Bool.and_eq_true, decide_eq_true_eq, Option.isSome_iff_ne_none] at hpos hcanc hna
  refine ⟨hpos.1, hpos.2, ?_, rfl, u, hu, hna.2, hna.1.1.1, rfl, rfl⟩
  simp only [Bool.not_eq_true'] at hcanc
  exact hcanc

/-- Projection of a cleaned record backwards into a raw record, used to model
re-running the cleaning code on its own output frame: numeric cells are
present, a parsed timestamp is a present parsable cell, and a `NaT` timestamp
is a missing cell (which is exactly how `dropna` sees `NaT`).  The derived
`TotalPrice` column is not consulted by any cleaning step and is dropped. -/
def toRaw (c : CleanTxn) : RawTxn :=
  { invoiceNo := c.invoiceNo
    description := c.description
    customerId := some ((c.customerId : ℚ))
    quantity := some c.quantity
    unitPrice := some c.unitPrice
    invoiceDate := c.invoiceDate.map some }

/-- Forgetting the `TotalPrice` column of a cleaned record. -/
def toCo (c : CleanTxn) : CoTxn :=
  { invoiceNo := c.invoiceNo
    description := c.description
    customerId := c.customerId
    quantity := c.quantity
    unitPrice := c.unitPrice
    invoiceDate := c.invoiceDate }

theorem coerceRow_toRaw (c : CleanTxn) : coerceRow (toRaw c) = toCo c := by
  cases h : c.invoiceDate <;>
    simp [coerceRow, toRaw, toCo, truncQ_intCast, h, Option.join]

theorem addTotal_toCo {c : CleanTxn} (h : c.totalPrice = c.quantity * c.unitPrice) :
    addTotal (toCo c) = c := by
  cases c
  simp only [addTotal, toCo]
  simp_all

/-- One day of `pd.Timedelta(days=1)`, with timestamps measured in seconds. -/
def secondsPerDay : ℤ := 86400

/-- Maximum of a list of timestamps, `none` on the empty list: models
`Series.max()` over the non-null entries of a datetime column (`NaT` on an
all-null or empty column). -/
def listMaxZ : List ℤ → Option ℤ
  | [] => none
  | x :: l =>
    match listMaxZ l with
    | none => some x
    | some y => some (max x y)

theorem le_listMaxZ {x : ℤ} : ∀ {l : List ℤ}, x ∈ l → ∃ m, listMaxZ l = some m ∧ x ≤ m := by
  intro l
  induction l with
  | nil => intro h; simp at h
  | cons y l ih =>
    intro h
    rcases List.mem_cons.mp h with h | h
    · subst h
      cases hl : listMaxZ l with
      | none => exact ⟨x, by simp [listMaxZ, hl], le_refl x⟩
      | some m => exact ⟨max x m, by simp [listMaxZ, hl], le_max_left x m⟩
    · obtain ⟨m, hm, hxm⟩ := ih h
      exact ⟨max y m, by simp [listMaxZ, hm], le_trans hxm (le_max_right y m)⟩

/-- The non-null parsed timestamps of a cleaned table's `InvoiceDate` column. -/
def parsedDates (ts : List CleanTxn) : List ℤ := ts.filterMap (fun t => t.invoiceDate)

/-- Line 31: `reference_date = df[InvoiceDate].max() + pd.Timedelta(days=1)`;
on an empty (or all-`NaT`) column the max is `NaT` and so is the sum. -/
def referenceDate (ts : List CleanTxn) : Option ℤ :=
  (listMaxZ (parsedDates ts)).map (fun d => d + secondsPerDay)

/-- The rows of one customer's group under `groupby(CustomerID)`. -/
def txnsOf (ts : List CleanTxn) (c : ℤ) : List CleanTxn :=
  ts.filter (fun t => t.customerId = c)

/-- The group keys of `groupby(CustomerID)`, in sorted order (pandas sorts
group keys by default). -/
def customers (ts : List CleanTxn) : List ℤ :=
  List.insertionSort (fun a b => a ≤ b) (dedupFirst (ts.map (fun t => t.customerId)))

/-- Line 37: `(reference_date - x.max()).days` for one customer's dates;
`Timedelta.days` is floor division by one day, and any `NaT` involved makes
the result null. -/
def recencyOf (ts : List CleanTxn) (c : ℤ) : Option ℤ :=
  match referenceDate ts, listMaxZ (parsedDates (txnsOf ts c)) with
  | some r, some m => some ((r - m).fdiv secondsPerDay)
  | _, _ => none

/-- Line 38: `InvoiceNo: nunique` within one customer's group. -/
def frequencyOf (ts : List CleanTxn) (c : ℤ) : ℕ :=
  (dedupFirst ((txnsOf ts c).map (fun t => t.invoiceNo))).length

/-- Line 39: `TotalPrice: sum` within one customer's group. -/
def monetaryOf (ts : List CleanTxn) (c : ℤ) : ℚ :=
  ((txnsOf ts c).map (fun t => t.totalPrice)).sum

/-- One row of the aggregated `rfm` frame (lines 36-46). -/
structure CustomerRFM where
  customerId : ℤ
  recency : Option ℤ
  frequency : ℕ
  monetary : ℚ
deriving DecidableEq

/-- Steps 2-3 (lines 31-46): the aggregated per-customer RFM table. -/
def rfmOfClean (ts : List CleanTxn) : List CustomerRFM :=
  (customers ts).map (fun c => ⟨c, recencyOf ts c, frequencyOf ts c, monetaryOf ts c⟩)

theorem listMaxZ_mem : ∀ {l : List ℤ} {m : ℤ}, listMaxZ l = some m → m ∈ l := by
  intro l
  induction l with
  | nil => intro m h; simp [listMaxZ] at h
  | cons y l ih =>
    intro m h
    cases hl : listMaxZ l with
    | none =>
      rw [listMaxZ, hl] at h
      exact List.mem_cons.mpr (Or.inl (Option.some.inj h).symm)
    | some z =>
      rw [listMaxZ, hl] at h
      have hm : m = max y z := (Option.some.inj h).symm
      rcases max_choice y z with hc | hc
      · exact List.mem_cons.mpr (Or.inl (hm.trans hc))
      · refine List.mem_cons.mpr (Or.inr (ih ?_))
        rw [hl, hm, hc]

/-- A raw record that is entirely valid except that its (non-null) timestamp
string does not parse: `dropna` keeps it and `to_datetime` turns it into
`NaT`. -/
def rawU : RawTxn :=
  { invoiceNo := "536365", description := "WIDGET", customerId := some 1,
    quantity := some 2, unitPrice := some 3, invoiceDate := some none }

/-- A fully valid raw record (parsable timestamp, positive amounts). -/
def rawG : RawTxn :=
  { invoiceNo := "536366", description := "GADGET", customerId := some 7,
    quantity := some 2, unitPrice := some 5, invoiceDate := some (some 0) }

/-- A cancellation record: its invoice identifier starts with `C`, so the
Cleaner drops it and the cleaned table is empty. -/
def rawC : RawTxn :=
  { invoiceNo := "C536370", description := "CANCEL", customerId := some 3,
    quantity := some 1, unitPrice := some 1, invoiceDate := some (some 0) }

/-- C1, counterexample: the record `rawU` has a non-null but unparsable
timestamp string; it survives cleaning (the output has one record) and every
surviving record carries a null parsed date, contradicting the claim that
such records are dropped rather than retained with a null date. -/
theorem C1_counterexample :
    (clean [rawU]).length = 1 ∧ ∀ c ∈ clean [rawU], c.invoiceDate = none := by decide

/-- C1, amended: every record surviving the Cleaner has positive quantity and
unit price, an integer (non-null) customer identifier, an invoice identifier
not starting with the cancellation marker, and a total price equal to
quantity times unit price; its raw timestamp cell was non-null, but the
parsed date is the possibly failed parse of that cell and may be null. -/
theorem C1_theorem {raws : List RawTxn} {c : CleanTxn} (hc : c ∈ clean raws) :
    0 < c.quantity ∧ 0 < c.unitPrice ∧ isCancelInvoice c.invoiceNo = false ∧
      c.totalPrice = c.quantity * c.unitPrice ∧
      ∃ r ∈ raws, r.invoiceDate ≠ none ∧ r.customerId ≠ none ∧
        c.invoiceDate = r.invoiceDate.join ∧ c.customerId = truncQ (r.customerId.getD 0) :=
  clean_mem_spec hc

/-- C1, witness: the amended invariant evaluated on the cleaned form of the
concrete valid record `rawG`. -/
theorem C1_witness :
    0 < (addTotal (coerceRow rawG)).quantity ∧ 0 < (addTotal (coerceRow rawG)).unitPrice ∧
      isCancelInvoice (addTotal (coerceRow rawG)).invoiceNo = false ∧
      (addTotal (coerceRow rawG)).totalPrice =
        (addTotal (coerceRow rawG)).quantity * (addTotal (coerceRow rawG)).unitPrice ∧
      ∃ r ∈ [rawG], r.invoiceDate ≠ none ∧ r.customerId ≠ none ∧
        (addTotal (coerceRow rawG)).invoiceDate = r.invoiceDate.join ∧
        (addTotal (coerceRow rawG)).customerId = truncQ (r.customerId.getD 0) :=
  @C1_theorem [rawG] (addTotal (coerceRow rawG)) (List.mem_singleton.mpr rfl)

/-- C3, counterexample: on input whose cleaning output is empty the run does
not abort; the reference date is computed as null (max of an empty column)
and aggregation proceeds, producing an empty customer table. -/
theorem C3_counterexample :
    clean [rawC] = [] ∧ referenceDate (clean [rawC]) = none ∧
      rfmOfClean (clean [rawC]) = [] := by decide

/-- C3, amended: whenever cleaning yields zero records, the reference date is
computed as null rather than aborting, and aggregation yields the empty
customer table. -/
theorem C3_theorem (raws : List RawTxn) (h : clean raws = []) :
    referenceDate (clean raws) = none ∧ rfmOfClean (clean raws) = [] := by
  rw [h]
  exact ⟨rfl, rfl⟩

/-- C3, witness: the amended statement evaluated at the empty input. -/
theorem C3_witness : referenceDate (clean []) = none ∧ rfmOfClean (clean []) = [] :=
  C3_theorem [] rfl

/-- C4: the classifier agrees with the spec's ordered decision list on all of
the score domain, produces one of the five labels, and maps the three
spotlighted triples as claimed. -/
theorem C4_theorem (r f m : ℕ) (h1 : 1 ≤ r) (h2 : r ≤ 5) (h3 : 1 ≤ f) (h4 : f ≤ 5)
    (h5 : 1 ≤ m) (h6 : m ≤ 5) :
    segment_customer r f m = segmentSpecRules r f m ∧
      segment_customer r f m ∈ segmentLabels ∧
      segment_customer 5 5 1 = ("Champions") ∧
      segment_customer 2 1 5 = ("Others") ∧
      segment_customer 1 4 3 = ("At Risk") :=
  ⟨rfl, segment_customer_mem_labels r f m, by decide, by decide, by decide⟩

/-- C4, witness: the classifier evaluated at the triple (5,5,1). -/
theorem C4_witness :
    segment_customer 5 5 1 = segmentSpecRules 5 5 1 ∧
      segment_customer 5 5 1 ∈ segmentLabels ∧
      segment_customer 5 5 1 = ("Champions") ∧
      segment_customer 2 1 5 = ("Others") ∧
      segment_customer 1 4 3 = ("At Risk") :=
  C4_theorem 5 5 1 (by decide) (by decide) (by decide) (by decide) (by decide) (by decide)

/-- C5, counterexample: the cleaned form of `rawU` is a non-empty cleaned
set, yet its (only) customer has a null Recency, because the record's
timestamp survived cleaning as `NaT`; so Recency is not always a number
at least 1. -/
theorem C5_counterexample :
    clean [rawU] ≠ [] ∧ ∃ cust ∈ rfmOfClean (clean [rawU]), cust.recency = none := by decide

/-- C5, amended: every aggregated customer owning at least one transaction
with a non-null parsed timestamp has a Recency that is a number at least 1
(the reference date is one day past the global maximum parsed timestamp and
the customer's latest parsed timestamp is at most that maximum). -/
theorem C5_theorem (ts : List CleanTxn) (cust : CustomerRFM) (hmem : cust ∈ rfmOfClean ts)
    (hdated : ∃ t ∈ ts, t.customerId = cust.customerId ∧ t.invoiceDate ≠ none) :
    ∃ n, cust.recency = some n ∧ 1 ≤ n := by
  obtain ⟨c, hc, rfl⟩ := List.mem_map.mp hmem
  obtain ⟨t, ht, hcid, hdate⟩ := hdated
  cases hd : t.invoiceDate with
  | none => exact absurd hd hdate
  | some d =>
    have htc : t ∈ txnsOf ts c := by
      rw [txnsOf, List.mem_filter]
      refine ⟨ht, ?_⟩
      simpa using hcid
    have hdmem : d ∈ parsedDates (txnsOf ts c) := by
      rw [parsedDates, List.mem_filterMap]
      exact ⟨t, htc, hd⟩
    obtain ⟨m, hm, hdm⟩ := le_listMaxZ hdmem
    have hmts : m ∈ parsedDates ts := by
      have hmem' : m ∈ parsedDates (txnsOf ts c) := listMaxZ_mem hm
      rw [parsedDates, List.mem_filterMap] at hmem' ⊢
      obtain ⟨u, hu, hud⟩ := hmem'
      rw [txnsOf] at hu
      exact ⟨u, (List.mem_filter.mp hu).1, hud⟩
    obtain ⟨g, hg, hmg⟩ := le_listMaxZ hmts
    have href : referenceDate ts = some (g + secondsPerDay) := by
      rw [referenceDate, hg]
      rfl
    refine ⟨(g + secondsPerDay - m).fdiv secondsPerDay, ?_, ?_⟩
    · show recencyOf ts c = _
      unfold recencyOf
      rw [href, hm]
    · have h0 : (0:ℤ) ≤ secondsPerDay := by norm_num [secondsPerDay]
      rw [Int.fdiv_eq_ediv _ h0]
      unfold secondsPerDay at *
      omega

/-- C5, witness: the amended statement evaluated on the one-customer run
produced by the valid record `rawG`. -/
theorem C5_witness :
    ∃ n, (CustomerRFM.mk 7 (recencyOf (clean [rawG]) 7) (frequencyOf (clean [rawG]) 7)
      (monetaryOf (clean [rawG]) 7)).recency = some n ∧ 1 ≤ n :=
  C5_theorem (clean [rawG]) _ (List.mem_singleton.mpr rfl)
    ⟨addTotal (coerceRow rawG), List.mem_singleton.mpr rfl, rfl, by decide⟩

/-- C8, counterexample: the cleaned form of `rawU` (one record, with a `NaT`
parsed timestamp) is emptied by a second run of the Cleaner, because the
second `dropna` sees the `NaT` as missing; so the Cleaner is not idempotent. -/
theorem C8_counterexample :
    clean ((clean [rawU]).map toRaw) = [] ∧ clean [rawU] ≠ [] := by decide

/-- C8, amended: re-running the Cleaner on its own output is the identity
provided that output has no duplicate rows (coercion can merge previously
distinct rows) and no null parsed timestamps (which a second `dropna` would
drop). -/
theorem C8_theorem (raws : List RawTxn) (hnd : (clean raws).Nodup)
    (hdate : ∀ c ∈ clean raws, c.invoiceDate ≠ none) :
    clean ((clean raws).map toRaw) = clean raws := by
  have hinj : ∀ x ∈ clean raws, ∀ y ∈ clean raws, toRaw x = toRaw y → x = y := by
    intro x hx y hy hxy
    have hx' := (clean_mem_spec hx).2.2.2.1
    have hy' := (clean_mem_spec hy).2.2.2.1
    obtain ⟨xn, xd, xc, xq, xp, xt, xm⟩ := x
    obtain ⟨yn, yd, yc, yq, yp, yt, ym⟩ := y
    simp only [toRaw, RawTxn.mk.injEq, Option.some.injEq] at hxy
    obtain ⟨h1, h2, h3, h4, h5, h6⟩ := hxy
    have hcid : xc = yc := Int.cast_injective h3
    have hdt : xt = yt := Option.map_injective (Option.some_injective ℤ) h6
    simp only at hx' hy'
    subst h1 h2 h4 h5 hcid hdt
    simp [hx', hy']
  have hnodup : ((clean raws).map toRaw).Nodup := hnd.map_on hinj
  have hdropna : ∀ r ∈ (clean raws).map toRaw, dropnaRow r = true := by
    intro r hr
    obtain ⟨c, hc, rfl⟩ := List.mem_map.mp hr
    cases hcd : c.invoiceDate with
    | none => exact absurd hcd (hdate c hc)
    | some d => simp [dropnaRow, toRaw, hcd]
  have hnc : ∀ t ∈ (clean raws).map toCo, notCancelled t = true := by
    intro t ht
    obtain ⟨c, hc, rfl⟩ := List.mem_map.mp ht
    have := (clean_mem_spec hc).2.2.1
    simp [notCancelled, toCo, this]
  have hpos : ∀ t ∈ (clean raws).map toCo, posQtyPrice t = true := by
    intro t ht
    obtain ⟨c, hc, rfl⟩ := List.mem_map.mp ht
    have h1 := (clean_mem_spec hc).1
    have h2 := (clean_mem_spec hc).2.1
    simp [posQtyPrice, toCo, h1, h2]
  have hco : coerceRow ∘ toRaw = toCo := funext coerceRow_toRaw
  calc clean ((clean raws).map toRaw)
      = (((((dedupFirst ((clean raws).map toRaw)).filter dropnaRow).map
          coerceRow).filter notCancelled).filter posQtyPrice).map addTotal := rfl
    _ = (((((clean raws).map toRaw).map coerceRow).filter notCancelled).filter
          posQtyPrice).map addTotal := by
        rw [dedupFirst_eq_self hnodup, List.filter_eq_self.mpr hdropna]
    _ = ((((clean raws).map toCo).filter notCancelled).filter posQtyPrice).map addTotal := by
        rw [List.map_map, hco]
    _ = (((clean raws).map toCo).filter posQtyPrice).map addTotal := by
        rw [List.filter_eq_self.mpr hnc]
    _ = (((clean raws).map toCo)).map addTotal := by
        rw [List.filter_eq_self.mpr hpos]
    _ = clean raws := by
        rw [List.map_map]
        have hid : ∀ c ∈ clean raws, (addTotal ∘ toCo) c = id c := by
          intro c hc
          exact addTotal_toCo (clean_mem_spec hc).2.2.2.1
        rw [List.map_congr_left hid, List.map_id]

/-- C8, witness: re-cleaning is the identity on the cleaned form of the
valid record `rawG`. -/
theorem C8_witness : clean ((clean [rawG]).map toRaw) = clean [rawG] :=
  C8_theorem [rawG] (by decide) (by decide)

/-- C9: the segment label does not depend on the monetary score: the
classifier reads it but never uses it. -/
theorem C9_theorem (r f m m' : ℕ) :
    segment_customer r f m = segment_customer r f m' := rfl

theorem sum_map_ite_mem {β M : Type} [DecidableEq β] [AddCommMonoid M] (b : β) (x : M)
    (F : β → M) :
    ∀ (K : List β), K.Nodup → b ∈ K →
      (K.map (fun c => if b = c then x + F c else F c)).sum = x + (K.map F).sum := by
  intro K
  induction K with
  | nil => intro _ hb; simp at hb
  | cons c₀ K ih =>
    intro hK hb
    rcases List.nodup_cons.mp hK with ⟨hc₀, hK'⟩
    rcases List.mem_cons.mp hb with hb | hb
    · subst hb
      simp only [List.map_cons, List.sum_cons]
      have htail : K.map (fun c => if b = c then x + F c else F c) = K.map F := by
        apply List.map_congr_left
        intro c hc
        rw [if_neg]
        intro h
        exact hc₀ (h ▸ hc)
      rw [if_pos trivial, htail, add_assoc]
    · have hbc : b ≠ c₀ := fun h => hc₀ (h ▸ hb)
      simp only [List.map_cons, List.sum_cons, if_neg hbc]
      rw [ih hK' hb, add_left_comm]

/-- Splitting a sum over a list into sums over the fibers of a key function,
one fiber per key of a duplicate-free key list covering the list: this is the
algebra of `groupby(CustomerID).agg(sum)`. -/
theorem sum_fiberwise {α β M : Type} [DecidableEq β] [AddCommMonoid M] (g : α → β)
    (h : α → M) :
    ∀ (ts : List α) (K : List β), K.Nodup → (∀ t ∈ ts, g t ∈ K) →
      (K.map (fun c => ((ts.filter (fun t => g t = c)).map h).sum)).sum = (ts.map h).sum := by
  intro ts
  induction ts with
  | nil =>
    intro K hK hcov
    rw [List.sum_eq_zero, List.map_nil, List.sum_nil]
    intro x hx
    obtain ⟨c, hc, rfl⟩ := List.mem_map.mp hx
    simp
  | cons t ts ih =>
    intro K hK hcov
    have hgt : g t ∈ K := hcov t (List.mem_cons_self t ts)
    have hsplit : ∀ c, (((t :: ts).filter (fun u => g u = c)).map h).sum
        = if g t = c then h t + ((ts.filter (fun u => g u = c)).map h).sum
          else ((ts.filter (fun u => g u = c)).map h).sum := by
      intro c
      by_cases hc : g t = c
      · rw [List.filter_cons_of_pos (by simpa using hc), List.map_cons, List.sum_cons,
          if_pos hc]
      · rw [List.filter_cons_of_neg (by simpa using hc), if_neg hc]
    calc (K.map (fun c => (((t :: ts).filter (fun u => g u = c)).map h).sum)).sum
        = (K.map (fun c => if g t = c then h t + ((ts.filter (fun u => g u = c)).map h).sum
            else ((ts.filter (fun u => g u = c)).map h).sum)).sum := by
          rw [List.map_congr_left (fun c _ => hsplit c)]
      _ = h t + (K.map (fun c => ((ts.filter (fun u => g u = c)).map h).sum)).sum :=
          sum_map_ite_mem (g t) (h t) _ K hK hgt
      _ = h t + (ts.map h).sum := by
          rw [ih K hK (fun u hu => hcov u (List.mem_cons_of_mem t hu))]
      _ = ((t :: ts).map h).sum := by rw [List.map_cons, List.sum_cons]

theorem customers_nodup (ts : List CleanTxn) : (customers ts).Nodup := by
  unfold customers
  exact (List.perm_insertionSort (fun a b => a ≤ b) _).symm.nodup
    (nodup_dedupFirst (ts.map (fun t => t.customerId)))

theorem customers_perm (ts : List CleanTxn) :
    List.Perm (customers ts) (dedupFirst (ts.map (fun t => t.customerId))) :=
  List.perm_insertionSort (fun a b => a ≤ b) _

/-- The total of the derived `TotalPrice` column over a cleaned table. -/
def totalSum (ts : List CleanTxn) : ℚ := (ts.map (fun t => t.totalPrice)).sum

/-- The sum of the `Monetary` column of the aggregated table. -/
def sumMonetary (ts : List CleanTxn) : ℚ :=
  ((rfmOfClean ts).map (fun r => r.monetary)).sum

/-- The sum of the `Frequency` column of the aggregated table. -/
def sumFrequency (ts : List CleanTxn) : ℕ :=
  ((rfmOfClean ts).map (fun r => r.frequency)).sum

/-- The number of distinct invoice identifiers in a cleaned table
(`InvoiceNo.nunique()` over the whole table). -/
def distinctInvoices (ts : List CleanTxn) : ℕ :=
  (dedupFirst (ts.map (fun t => t.invoiceNo))).length

/-- The (customer, invoice) key of a cleaned record. -/
def custInvoicePair (t : CleanTxn) : ℤ × String := (t.customerId, t.invoiceNo)

/-- The number of distinct (customer, invoice) pairs in a cleaned table. -/
def distinctPairs (ts : List CleanTxn) : ℕ :=
  (dedupFirst (ts.map custInvoicePair)).length

theorem sum_map_one {α : Type} : ∀ (l : List α), (l.map (fun _ => (1:ℕ))).sum = l.length := by
  intro l
  induction l with
  | nil => rfl
  | cons a l ih =>
    simp only [List.map_cons, List.sum_cons, List.length_cons, ih]
    omega

theorem sumMonetary_eq_totalSum (ts : List CleanTxn) : sumMonetary ts = totalSum ts := by
  have hcov : ∀ t ∈ ts, t.customerId ∈ dedupFirst (ts.map (fun u => u.customerId)) := by
    intro t ht
    exact mem_dedupFirst.mpr (List.mem_map_of_mem _ ht)
  calc sumMonetary ts
      = ((customers ts).map (fun c => monetaryOf ts c)).sum := by
        unfold sumMonetary rfmOfClean
        rw [List.map_map]
        rfl
    _ = ((dedupFirst (ts.map (fun u => u.customerId))).map (fun c => monetaryOf ts c)).sum :=
        ((customers_perm ts).map _).sum_eq
    _ = ((dedupFirst (ts.map (fun u => u.customerId))).map
          (fun c => ((ts.filter (fun t => t.customerId = c)).map
            (fun t => t.totalPrice)).sum)).sum := rfl
    _ = (ts.map (fun t => t.totalPrice)).sum :=
        sum_fiberwise (fun t : CleanTxn => t.customerId) (fun t => t.totalPrice) ts
          (dedupFirst (ts.map (fun u => u.customerId))) (nodup_dedupFirst _) hcov
    _ = totalSum ts := rfl

theorem fiber_pairs_length (ts : List CleanTxn) (c : ℤ) :
    ((dedupFirst (ts.map custInvoicePair)).filter (fun q => q.1 = c)).length
      = frequencyOf ts c := by
  have hinj : Function.Injective (fun i : String => ((c, i) : ℤ × String)) := by
    intro i j h
    simpa using congrArg Prod.snd h
  have h2 : (txnsOf ts c).map custInvoicePair
      = ((txnsOf ts c).map (fun t => t.invoiceNo)).map (fun i => ((c, i) : ℤ × String)) := by
    rw [List.map_map]
    apply List.map_congr_left
    intro t ht
    rw [txnsOf] at ht
    have hc : t.customerId = c := by simpa using (List.mem_filter.mp ht).2
    simp [custInvoicePair, Function.comp, hc]
  rw [dedupFirst_filter, List.filter_map]
  have h1 : ts.filter ((fun q : ℤ × String => decide (q.1 = c)) ∘ custInvoicePair)
      = txnsOf ts c := rfl
  rw [h1, h2, dedupFirst_map_inj hinj, List.length_map]
  rfl

theorem sumFrequency_eq (ts : List CleanTxn) :
    sumFrequency ts
      = ((dedupFirst (ts.map (fun t => t.customerId))).map (fun c => frequencyOf ts c)).sum := by
  calc sumFrequency ts
      = ((customers ts).map (fun c => frequencyOf ts c)).sum := by
        unfold sumFrequency rfmOfClean
        rw [List.map_map]
        rfl
    _ = _ := ((customers_perm ts).map _).sum_eq

theorem distinctPairs_eq_sum (ts : List CleanTxn) :
    distinctPairs ts
      = ((dedupFirst (ts.map (fun t => t.customerId))).map (fun c => frequencyOf ts c)).sum := by
  have hcov : ∀ q ∈ dedupFirst (ts.map custInvoicePair),
      q.1 ∈ dedupFirst (ts.map (fun t => t.customerId)) := by
    intro q hq
    rw [mem_dedupFirst] at hq
    obtain ⟨t, ht, rfl⟩ := List.mem_map.mp hq
    exact mem_dedupFirst.mpr (List.mem_map_of_mem _ ht)
  have hfib := sum_fiberwise (fun q : ℤ × String => q.1) (fun _ => (1:ℕ))
    (dedupFirst (ts.map custInvoicePair)) (dedupFirst (ts.map (fun t => t.customerId)))
    (nodup_dedupFirst _) hcov
  have hlen : ∀ c ∈ dedupFirst (ts.map (fun t => t.customerId)),
      (((dedupFirst (ts.map custInvoicePair)).filter
        (fun q => q.1 = c)).map (fun _ => (1:ℕ))).sum = frequencyOf ts c := by
    intro c _
    rw [sum_map_one]
    exact fiber_pairs_length ts c
  rw [List.map_congr_left hlen, sum_map_one] at hfib
  exact hfib.symm

theorem distinctPairs_eq_distinctInvoices (ts : List CleanTxn)
    (hsh : ∀ t ∈ ts, ∀ u ∈ ts, t.invoiceNo = u.invoiceNo → t.customerId = u.customerId) :
    distinctPairs ts = distinctInvoices ts := by
  have hdp : (dedupFirst (ts.map custInvoicePair)).Nodup := nodup_dedupFirst _
  have hdi : (dedupFirst (ts.map (fun t => t.invoiceNo))).Nodup := nodup_dedupFirst _
  have hinj : Set.InjOn Prod.snd
      ((dedupFirst (ts.map custInvoicePair)).toFinset : Set (ℤ × String)) := by
    intro q1 h1 q2 h2 hsnd
    rw [Finset.mem_coe, List.mem_toFinset, mem_dedupFirst] at h1 h2
    obtain ⟨t1, ht1, rfl⟩ := List.mem_map.mp h1
    obtain ⟨t2, ht2, rfl⟩ := List.mem_map.mp h2
    have hio : t1.invoiceNo = t2.invoiceNo := by simpa [custInvoicePair] using hsnd
    have hcid := hsh t1 ht1 t2 ht2 hio
    simp [custInvoicePair, hcid, hio]
  have himg : (dedupFirst (ts.map custInvoicePair)).toFinset.image Prod.snd
      = (dedupFirst (ts.map (fun t => t.invoiceNo))).toFinset := by
    ext i
    simp only [Finset.mem_image, List.mem_toFinset, mem_dedupFirst]
    constructor
    · rintro ⟨q, hq, rfl⟩
      obtain ⟨t, ht, rfl⟩ := List.mem_map.mp hq
      exact List.mem_map_of_mem _ ht
    · intro hi
      obtain ⟨t, ht, rfl⟩ := List.mem_map.mp hi
      exact ⟨custInvoicePair t, List.mem_map_of_mem _ ht, rfl⟩
  calc distinctPairs ts
      = (dedupFirst (ts.map custInvoicePair)).toFinset.card :=
        (List.toFinset_card_of_nodup hdp).symm
    _ = ((dedupFirst (ts.map custInvoicePair)).toFinset.image Prod.snd).card :=
        (Finset.card_image_of_injOn hinj).symm
    _ = (dedupFirst (ts.map (fun t => t.invoiceNo))).toFinset.card := by rw [himg]
    _ = distinctInvoices ts := List.toFinset_card_of_nodup hdi

/-- Two cleaned records of different customers sharing one invoice
identifier: the groupby counts that invoice once per customer. -/
def rawA : RawTxn :=
  { invoiceNo := "536400", description := "ALPHA", customerId := some 1,
    quantity := some 1, unitPrice := some 1, invoiceDate := some (some 0) }

/-- Second record sharing `rawA`'s invoice identifier, different customer. -/
def rawB : RawTxn :=
  { invoiceNo := "536400", description := "BETA", customerId := some 2,
    quantity := some 1, unitPrice := some 1, invoiceDate := some (some 0) }

/-- C7, counterexample: on a cleaned set where one invoice identifier is
shared by two customers, the Frequency column sums to 2 while the set has
only 1 distinct invoice identifier, refuting the claimed equality. -/
theorem C7_counterexample :
    sumFrequency (clean [rawA, rawB]) = 2 ∧ distinctInvoices (clean [rawA, rawB]) = 1 ∧
      sumFrequency (clean [rawA, rawB]) ≠ distinctInvoices (clean [rawA, rawB]) := by decide

/-- C7, amended: over any cleaned table, the Monetary column of the
aggregated table sums exactly to the total of the `TotalPrice` column, and
the Frequency column sums to the number of distinct (customer, invoice)
pairs; that count equals the number of distinct invoice identifiers whenever
no invoice identifier is shared by two different customers. -/
theorem C7_theorem (ts : List CleanTxn) :
    sumMonetary ts = totalSum ts ∧
      sumFrequency ts = distinctPairs ts ∧
      ((∀ t ∈ ts, ∀ u ∈ ts, t.invoiceNo = u.invoiceNo → t.customerId = u.customerId) →
        sumFrequency ts = distinctInvoices ts) :=
  ⟨sumMonetary_eq_totalSum ts,
    (sumFrequency_eq ts).trans (distinctPairs_eq_sum ts).symm,
    fun hsh => ((sumFrequency_eq ts).trans (distinctPairs_eq_sum ts).symm).trans
      (distinctPairs_eq_distinctInvoices ts hsh)⟩

/-- C7, witness: the aggregation-consistency identities evaluated on the
cleaned form of the concrete record `rawG`. -/
theorem C7_witness :
    sumMonetary (clean [rawG]) = totalSum (clean [rawG]) ∧
      sumFrequency (clean [rawG]) = distinctInvoices (clean [rawG]) :=
  ⟨(C7_theorem (clean [rawG])).1, (C7_theorem (clean [rawG])).2.2 (by decide)⟩

/-- The strict key order underlying `rank(method=first)` on a column `vs`:
entry `j` precedes entry `i` when its value is strictly smaller, or the
values are tied and `j` appears earlier (stable, arrival-order tie-break). -/
def keyLt (vs : List ℚ) (j i : ℕ) : Prop :=
  vs.getD j 0 < vs.getD i 0 ∨ (vs.getD j 0 = vs.getD i 0 ∧ j < i)

instance keyLtDec (vs : List ℚ) (j i : ℕ) : Decidable (keyLt vs j i) := by
  unfold keyLt
  exact inferInstance

/-- Rank of entry `i` of the column `vs` under `Series.rank(method=first)`: one plus
the number of entries that are strictly smaller, or tied and earlier. -/
def rankAt (vs : List ℚ) (i : ℕ) : ℕ :=
  1 + ((Finset.range vs.length).filter (fun j => keyLt vs j i)).card

theorem keyLt_irrefl (vs : List ℚ) (i : ℕ) : ¬ keyLt vs i i := by
  unfold keyLt
  simp

theorem keyLt_trans {vs : List ℚ} {a b c : ℕ} (h1 : keyLt vs a b) (h2 : keyLt vs b c) :
    keyLt vs a c := by
  unfold keyLt at h1 h2 ⊢
  rcases h1 with h1 | ⟨h1, h1'⟩ <;> rcases h2 with h2 | ⟨h2, h2'⟩
  · exact Or.inl (lt_trans h1 h2)
  · exact Or.inl (h2 ▸ h1)
  · exact Or.inl (h1.symm ▸ h2)
  · exact Or.inr ⟨h1.trans h2, lt_trans h1' h2'⟩

theorem keyLt_total {vs : List ℚ} {i j : ℕ} (h : i ≠ j) : keyLt vs i j ∨ keyLt vs j i := by
  unfold keyLt
  rcases lt_trichotomy (vs.getD i 0) (vs.getD j 0) with hv | hv | hv
  · exact Or.inl (Or.inl hv)
  · rcases Nat.lt_or_ge i j with hij | hij
    · exact Or.inl (Or.inr ⟨hv, hij⟩)
    · exact Or.inr (Or.inr ⟨hv.symm, lt_of_le_of_ne hij (Ne.symm h)⟩)
  · exact Or.inr (Or.inl hv)

theorem rankAt_lt {vs : List ℚ} {i j : ℕ} (hi : i < vs.length) (hk : keyLt vs i j) :
    rankAt vs i < rankAt vs j := by
  unfold rankAt
  have hsub : (Finset.range vs.length).filter (fun k => keyLt vs k i)
      ⊆ (Finset.range vs.length).filter (fun k => keyLt vs k j) := by
    intro k hkmem
    rw [Finset.mem_filter] at hkmem ⊢
    exact ⟨hkmem.1, keyLt_trans hkmem.2 hk⟩
  have hmem : i ∈ (Finset.range vs.length).filter (fun k => keyLt vs k j) := by
    rw [Finset.mem_filter]
    exact ⟨Finset.mem_range.mpr hi, hk⟩
  have hnot : i ∉ (Finset.range vs.length).filter (fun k => keyLt vs k i) := by
    rw [Finset.mem_filter]
    rintro ⟨_, hbad⟩
    exact keyLt_irrefl vs i hbad
  have hss := (Finset.ssubset_iff_of_subset hsub).mpr ⟨i, hmem, hnot⟩
  have := Finset.card_lt_card hss
  omega

theorem one_le_rankAt (vs : List ℚ) (i : ℕ) : 1 ≤ rankAt vs i := by
  unfold rankAt
  omega

theorem rankAt_le {vs : List ℚ} {i : ℕ} (hi : i < vs.length) : rankAt vs i ≤ vs.length := by
  unfold rankAt
  have hsub : (Finset.range vs.length).filter (fun k => keyLt vs k i)
      ⊆ (Finset.range vs.length).erase i := by
    intro k hk
    rw [Finset.mem_filter] at hk
    rw [Finset.mem_erase]
    refine ⟨?_, hk.1⟩
    intro hki
    exact keyLt_irrefl vs i (hki ▸ hk.2)
  have hcard := Finset.card_le_card hsub
  rw [Finset.card_erase_of_mem (Finset.mem_range.mpr hi), Finset.card_range] at hcard
  omega

theorem rankAt_injOn (vs : List ℚ) :
    Set.InjOn (rankAt vs) ((Finset.range vs.length : Finset ℕ) : Set ℕ) := by
  intro i hi j hj hij
  rw [Finset.mem_coe, Finset.mem_range] at hi hj
  by_contra hne
  rcases keyLt_total hne with hk | hk
  · exact absurd hij (Nat.ne_of_lt (rankAt_lt hi hk))
  · exact absurd hij.symm (Nat.ne_of_lt (rankAt_lt hj hk))

/-- The first-method ranks of a column of length `N` are exactly the numbers
`1` through `N`. -/
theorem rankAt_image (vs : List ℚ) :
    (Finset.range vs.length).image (rankAt vs) = Finset.Icc 1 vs.length := by
  apply Finset.eq_of_subset_of_card_le
  · intro r hr
    rw [Finset.mem_image] at hr
    obtain ⟨i, hi, rfl⟩ := hr
    rw [Finset.mem_Icc]
    exact ⟨one_le_rankAt vs i, rankAt_le (Finset.mem_range.mp hi)⟩
  · rw [Nat.card_Icc, Finset.card_image_of_injOn (rankAt_injOn vs), Finset.card_range]
    omega

/-- Counting customers by a property of their rank is counting ranks in
`1..N` with that property. -/
theorem count_rank_filter (vs : List ℚ) (p : ℕ → Prop) [DecidablePred p] :
    ((Finset.range vs.length).filter (fun i => p (rankAt vs i))).card
      = ((Finset.Icc 1 vs.length).filter p).card := by
  rw [← rankAt_image vs, Finset.filter_image,
    Finset.card_image_of_injOn
      ((rankAt_injOn vs).mono (Finset.coe_subset.mpr (Finset.filter_subset _ _)))]

/-- The six bin edges that `pd.qcut(ranks, 5)` computes on the first-method
ranks `1..N`: the linearly interpolated quantiles of `1..N` at
`0, 0.2, 0.4, 0.6, 0.8, 1`, namely `1 + j(N-1)/5` for `j = 0..5`. -/
def qcutEdges (N : ℕ) : List ℚ :=
  (List.range 6).map (fun j => 1 + (j : ℚ) * ((N - 1 : ℕ) : ℚ) / 5)

/-- The bucket (0-based bin index) that `pd.qcut(ranks, 5)` assigns to the
rank `r` among `1..N`: the first of the five right-closed bins whose upper
edge `1 + j(N-1)/5` is at least `r` (the minimum is included in the first
bin).  The comparison `r ≤ 1 + j(N-1)/5` is written in the equivalent exact
integer form `5r ≤ 5 + j(N-1)`; `qcutBucket_edges` relates this definition
to the rational edges. -/
def qcutBucket (N r : ℕ) : ℕ :=
  if 5 * r ≤ 5 + 1 * (N - 1) then 0
  else if 5 * r ≤ 5 + 2 * (N - 1) then 1
  else if 5 * r ≤ 5 + 3 * (N - 1) then 2
  else if 5 * r ≤ 5 + 4 * (N - 1) then 3
  else 4

theorem rank_le_edge_iff (r D j : ℕ) :
    ((r : ℚ) ≤ 1 + (j : ℚ) * (D : ℚ) / 5) ↔ 5 * r ≤ 5 + j * D := by
  constructor
  · intro h
    have h5 : ((5 * r : ℕ) : ℚ) ≤ ((5 + j * D : ℕ) : ℚ) := by
      push_cast
      linarith
    exact_mod_cast h5
  · intro h
    have h5 : ((5 * r : ℕ) : ℚ) ≤ ((5 + j * D : ℕ) : ℚ) := by exact_mod_cast h
    push_cast at h5
    linarith

theorem qcutEdges_getD (N j : ℕ) (hj : j < 6) :
    (qcutEdges N).getD j 0 = 1 + (j : ℚ) * ((N - 1 : ℕ) : ℚ) / 5 := by
  have hr : List.range 6 = [0, 1, 2, 3, 4, 5] := rfl
  unfold qcutEdges
  rw [hr]
  interval_cases j <;> simp

/-- The integer-form bucket agrees with binning by the rational qcut edges:
a rank is assigned to the first right-closed bin whose upper edge is at
least the rank. -/
theorem qcutBucket_edges (N r : ℕ) :
    qcutBucket N r =
      if (r : ℚ) ≤ (qcutEdges N).getD 1 0 then 0
      else if (r : ℚ) ≤ (qcutEdges N).getD 2 0 then 1
      else if (r : ℚ) ≤ (qcutEdges N).getD 3 0 then 2
      else if (r : ℚ) ≤ (qcutEdges N).getD 4 0 then 3
      else 4 := by
  rw [qcutEdges_getD N 1 (by omega), qcutEdges_getD N 2 (by omega),
    qcutEdges_getD N 3 (by omega), qcutEdges_getD N 4 (by omega)]
  simp only [rank_le_edge_iff]
  rfl

/-- For a population of at least two, the qcut edges on first-method ranks
are strictly increasing (no duplicate edges, so `pd.qcut` succeeds). -/
theorem qcutEdges_strictMono (N : ℕ) (hN : 2 ≤ N) :
    ∀ j < 5, (qcutEdges N).getD j 0 < (qcutEdges N).getD (j + 1) 0 := by
  intro j hj
  have hD : (1 : ℚ) ≤ ((N - 1 : ℕ) : ℚ) := by
    have : 1 ≤ N - 1 := by omega
    exact_mod_cast this
  rw [qcutEdges_getD N j (by omega), qcutEdges_getD N (j + 1) (by omega)]
  have hjj : (j : ℚ) < ((j + 1 : ℕ) : ℚ) := by exact_mod_cast Nat.lt_succ_self j
  have key : (j : ℚ) * ((N - 1 : ℕ) : ℚ) < ((j + 1 : ℕ) : ℚ) * ((N - 1 : ℕ) : ℚ) :=
    mul_lt_mul_of_pos_right hjj (by linarith)
  linarith

/-- For a population of at most one, all qcut edges coincide (duplicate bin
edges, on which `pd.qcut` raises its `ValueError`). -/
theorem qcutEdges_collapse (N : ℕ) (hN : N ≤ 1) :
    (qcutEdges N).getD 0 0 = (qcutEdges N).getD 1 0 := by
  have hD : N - 1 = 0 := by omega
  rw [qcutEdges_getD N 0 (by omega), qcutEdges_getD N 1 (by omega), hD]
  norm_num

theorem qcutBucket_le (N r : ℕ) : qcutBucket N r ≤ 4 := by
  unfold qcutBucket
  split_ifs <;> omega

theorem qcutBucket_mono (N : ℕ) {r r' : ℕ} (h : r ≤ r') :
    qcutBucket N r ≤ qcutBucket N r' := by
  unfold qcutBucket
  split_ifs <;> omega

/-- Line 51: the Recency score column, `qcut` of the first-method ranks with
the inverted labels `[5,4,3,2,1]` (most recent quintile scores 5). -/
def R_score (vs : List ℚ) (i : ℕ) : ℕ :=
  [5, 4, 3, 2, 1].getD (qcutBucket vs.length (rankAt vs i)) 0

/-- Line 52: the Frequency score column, `qcut` of the first-method ranks
with the direct labels `[1,2,3,4,5]`. -/
def F_score (vs : List ℚ) (i : ℕ) : ℕ :=
  [1, 2, 3, 4, 5].getD (qcutBucket vs.length (rankAt vs i)) 0

/-- Line 53: the Monetary score column, `qcut` of the first-method ranks
with the direct labels `[1,2,3,4,5]`. -/
def M_score (vs : List ℚ) (i : ℕ) : ℕ :=
  [1, 2, 3, 4, 5].getD (qcutBucket vs.length (rankAt vs i)) 0

theorem R_score_eq (vs : List ℚ) (i : ℕ) :
    R_score vs i = 5 - qcutBucket vs.length (rankAt vs i) := by
  unfold R_score
  have h := qcutBucket_le vs.length (rankAt vs i)
  set b := qcutBucket vs.length (rankAt vs i) with hb
  interval_cases b <;> rfl

theorem F_score_eq (vs : List ℚ) (i : ℕ) :
    F_score vs i = qcutBucket vs.length (rankAt vs i) + 1 := by
  unfold F_score
  have h := qcutBucket_le vs.length (rankAt vs i)
  set b := qcutBucket vs.length (rankAt vs i) with hb
  interval_cases b <;> rfl

theorem M_score_eq (vs : List ℚ) (i : ℕ) :
    M_score vs i = qcutBucket vs.length (rankAt vs i) + 1 := by
  unfold M_score
  have h := qcutBucket_le vs.length (rankAt vs i)
  set b := qcutBucket vs.length (rankAt vs i) with hb
  interval_cases b <;> rfl

/-- The Recency column of the aggregated table as rationals.  `scoreStep`
reads this column only on its success branch, whose guards require every
recency to be non-null, so the `Option.getD 0` there is never applied to a
null entry; null recencies are diverted to `scoreStep`'s two error paths
before this column is formed. -/
def recencyCol (rfm : List CustomerRFM) : List ℚ :=
  rfm.map (fun c => ((c.recency.getD 0 : ℤ) : ℚ))

/-- The Frequency column of the aggregated table as rationals. -/
def frequencyCol (rfm : List CustomerRFM) : List ℚ :=
  rfm.map (fun c => ((c.frequency : ℕ) : ℚ))

/-- The Monetary column of the aggregated table. -/
def monetaryCol (rfm : List CustomerRFM) : List ℚ :=
  rfm.map (fun c => c.monetary)

/-- The number of numeric (non-null) entries of the `Recency` column.  A
null recency arises when all of a customer's cleaned records carry
unparsable (`NaT`) timestamps, as documented with C1 and C5. -/
def numericRecencies (rfm : List CustomerRFM) : ℕ :=
  (rfm.filterMap (fun c => c.recency)).length

/-- Step 4 (lines 51-56): `pd.qcut` of each column's first-method ranks into
5 labelled bins, then the composite fields.  The failure behaviour of the
program is:
* `rank(method=first)` keeps `NaN` entries as `NaN`, and `pd.qcut` (line 51)
  computes its six interpolated quantile edges from the numeric ranks only;
  with at most one numeric recency the edges coincide
  (`qcutEdges_collapse`) and line 51 raises the generic duplicate-bin-edges
  `ValueError` — this also covers populations of size at most one;
* with at least two numeric recencies the edges are distinct
  (`qcutEdges_strictMono`) and line 51 succeeds, leaving a `NaN` score on
  every null-recency row; if any such row exists, line 56's `astype(int)`
  then fails on the non-finite score values;
* otherwise every recency is numeric and the population has at least two
  customers, so all three columns are fully numeric and the scores are the
  labelled buckets of lines 51-53.
No branch checks for a five-customer minimum, and no branch raises a
descriptive insufficient-data error. -/
def scoreStep (rfm : List CustomerRFM) : Except String (List (ℕ × ℕ × ℕ)) :=
  if numericRecencies rfm ≤ 1 then Except.error ("Bin edges must be unique")
  else if rfm.any (fun c => c.recency.isNone) then
    Except.error ("Cannot convert non-finite values (NA or inf) to integer")
  else
    Except.ok ((List.range rfm.length).map (fun i =>
      (R_score (recencyCol rfm) i, F_score (frequencyCol rfm) i,
        M_score (monetaryCol rfm) i)))

theorem numericRecencies_eq_length :
    ∀ {rfm : List CustomerRFM}, (∀ c ∈ rfm, c.recency ≠ none) →
      numericRecencies rfm = rfm.length := by
  intro rfm
  induction rfm with
  | nil => intro _; rfl
  | cons c l ih =>
    intro h
    cases hc : c.recency with
    | none => exact absurd hc (h c (List.mem_cons_self c l))
    | some n =>
      have htail := ih (fun c' hc' => h c' (List.mem_cons_of_mem c hc'))
      unfold numericRecencies at htail ⊢
      rw [List.filterMap_cons, hc, List.length_cons, List.length_cons, htail]

/-- Of the ranks `1..N`, those landing in bucket `j` number either `⌊N/5⌋`
or `⌈N/5⌉` (written `(N+4)/5` in natural division). -/
theorem card_bucket (N : ℕ) (hN : 2 ≤ N) (j : ℕ) (hj : j ≤ 4) :
    ((Finset.Icc 1 N).filter (fun r => qcutBucket N r = j)).card = N / 5 ∨
      ((Finset.Icc 1 N).filter (fun r => qcutBucket N r = j)).card = (N + 4) / 5 := by
  interval_cases j
  · have hset : (Finset.Icc 1 N).filter (fun r => qcutBucket N r = 0)
        = Finset.Icc 1 ((5 + 1 * (N - 1)) / 5) := by
      ext r
      simp only [Finset.mem_filter, Finset.mem_Icc, qcutBucket]
      split_ifs <;>
        (try simp only [and_true, and_false, true_iff, false_iff, iff_true, iff_false]) <;>
        omega
    rw [hset, Nat.card_Icc]
    have hmod : N % 5 = 0 ∨ N % 5 = 1 ∨ N % 5 = 2 ∨ N % 5 = 3 ∨ N % 5 = 4 := by omega
    rcases hmod with h | h | h | h | h <;> omega
  · have hset : (Finset.Icc 1 N).filter (fun r => qcutBucket N r = 1)
        = Finset.Icc ((5 + 1 * (N - 1)) / 5 + 1) ((5 + 2 * (N - 1)) / 5) := by
      ext r
      simp only [Finset.mem_filter, Finset.mem_Icc, qcutBucket]
      split_ifs <;>
        (try simp only [and_true, and_false, true_iff, false_iff, iff_true, iff_false]) <;>
        omega
    rw [hset, Nat.card_Icc]
    have hmod : N % 5 = 0 ∨ N % 5 = 1 ∨ N % 5 = 2 ∨ N % 5 = 3 ∨ N % 5 = 4 := by omega
    rcases hmod with h | h | h | h | h <;> omega
  · have hset : (Finset.Icc 1 N).filter (fun r => qcutBucket N r = 2)
        = Finset.Icc ((5 + 2 * (N - 1)) / 5 + 1) ((5 + 3 * (N - 1)) / 5) := by
      ext r
      simp only [Finset.mem_filter, Finset.mem_Icc, qcutBucket]
      split_ifs <;>
        (try simp only [and_true, and_false, true_iff, false_iff, iff_true, iff_false]) <;>
        omega
    rw [hset, Nat.card_Icc]
    have hmod : N % 5 = 0 ∨ N % 5 = 1 ∨ N % 5 = 2 ∨ N % 5 = 3 ∨ N % 5 = 4 := by omega
    rcases hmod with h | h | h | h | h <;> omega
  · have hset : (Finset.Icc 1 N).filter (fun r => qcutBucket N r = 3)
        = Finset.Icc ((5 + 3 * (N - 1)) / 5 + 1) ((5 + 4 * (N - 1)) / 5) := by
      ext r
      simp only [Finset.mem_filter, Finset.mem_Icc, qcutBucket]
      split_ifs <;>
        (try simp only [and_true, and_false, true_iff, false_iff, iff_true, iff_false]) <;>
        omega
    rw [hset, Nat.card_Icc]
    have hmod : N % 5 = 0 ∨ N % 5 = 1 ∨ N % 5 = 2 ∨ N % 5 = 3 ∨ N % 5 = 4 := by omega
    rcases hmod with h | h | h | h | h <;> omega
  · have hset : (Finset.Icc 1 N).filter (fun r => qcutBucket N r = 4)
        = Finset.Icc ((5 + 4 * (N - 1)) / 5 + 1) N := by
      ext r
      simp only [Finset.mem_filter, Finset.mem_Icc, qcutBucket]
      split_ifs <;>
        (try simp only [and_true, and_false, true_iff, false_iff, iff_true, iff_false]) <;>
        omega
    rw [hset, Nat.card_Icc]
    have hmod : N % 5 = 0 ∨ N % 5 = 1 ∨ N % 5 = 2 ∨ N % 5 = 3 ∨ N % 5 = 4 := by omega
    rcases hmod with h | h | h | h | h <;> omega

theorem card_F_score (vs : List ℚ) (s : ℕ) (hN : 2 ≤ vs.length) (hs1 : 1 ≤ s) (hs5 : s ≤ 5) :
    ((Finset.range vs.length).filter (fun i => F_score vs i = s)).card = vs.length / 5 ∨
      ((Finset.range vs.length).filter (fun i => F_score vs i = s)).card
        = (vs.length + 4) / 5 := by
  have hpred : ((Finset.range vs.length).filter (fun i => F_score vs i = s))
      = ((Finset.range vs.length).filter
          (fun i => qcutBucket vs.length (rankAt vs i) + 1 = s)) := by
    apply Finset.filter_congr
    intro i _
    rw [F_score_eq]
  rw [hpred, count_rank_filter vs (fun r => qcutBucket vs.length r + 1 = s)]
  have hpred2 : ((Finset.Icc 1 vs.length).filter (fun r => qcutBucket vs.length r + 1 = s))
      = ((Finset.Icc 1 vs.length).filter (fun r => qcutBucket vs.length r = s - 1)) := by
    apply Finset.filter_congr
    intro r _
    omega
  rw [hpred2]
  exact card_bucket vs.length hN (s - 1) (by omega)

theorem card_M_score (vs : List ℚ) (s : ℕ) (hN : 2 ≤ vs.length) (hs1 : 1 ≤ s) (hs5 : s ≤ 5) :
    ((Finset.range vs.length).filter (fun i => M_score vs i = s)).card = vs.length / 5 ∨
      ((Finset.range vs.length).filter (fun i => M_score vs i = s)).card
        = (vs.length + 4) / 5 := by
  have hpred : ((Finset.range vs.length).filter (fun i => M_score vs i = s))
      = ((Finset.range vs.length).filter
          (fun i => qcutBucket vs.length (rankAt vs i) + 1 = s)) := by
    apply Finset.filter_congr
    intro i _
    rw [M_score_eq]
  rw [hpred, count_rank_filter vs (fun r => qcutBucket vs.length r + 1 = s)]
  have hpred2 : ((Finset.Icc 1 vs.length).filter (fun r => qcutBucket vs.length r + 1 = s))
      = ((Finset.Icc 1 vs.length).filter (fun r => qcutBucket vs.length r = s - 1)) := by
    apply Finset.filter_congr
    intro r _
    omega
  rw [hpred2]
  exact card_bucket vs.length hN (s - 1) (by omega)

theorem card_R_score (vs : List ℚ) (s : ℕ) (hN : 2 ≤ vs.length) (hs1 : 1 ≤ s) (hs5 : s ≤ 5) :
    ((Finset.range vs.length).filter (fun i => R_score vs i = s)).card = vs.length / 5 ∨
      ((Finset.range vs.length).filter (fun i => R_score vs i = s)).card
        = (vs.length + 4) / 5 := by
  have hpred : ((Finset.range vs.length).filter (fun i => R_score vs i = s))
      = ((Finset.range vs.length).filter
          (fun i => 5 - qcutBucket vs.length (rankAt vs i) = s)) := by
    apply Finset.filter_congr
    intro i _
    rw [R_score_eq]
  rw [hpred, count_rank_filter vs (fun r => 5 - qcutBucket vs.length r = s)]
  have hpred2 : ((Finset.Icc 1 vs.length).filter (fun r => 5 - qcutBucket vs.length r = s))
      = ((Finset.Icc 1 vs.length).filter (fun r => qcutBucket vs.length r = 5 - s)) := by
    apply Finset.filter_congr
    intro r _
    have hb := qcutBucket_le vs.length r
    omega
  rw [hpred2]
  exact card_bucket vs.length hN (5 - s) (by omega)

theorem qcutBucket_one (N : ℕ) : qcutBucket N 1 = 0 := by
  unfold qcutBucket
  rw [if_pos (by omega)]

theorem qcutBucket_top (N : ℕ) (hN : 2 ≤ N) : qcutBucket N N = 4 := by
  unfold qcutBucket
  rw [if_neg (by omega), if_neg (by omega), if_neg (by omega), if_neg (by omega)]

/-- C6: on any column of at least 5 entries, each score value in 1..5 is
assigned by the direct scorings (`F_score`, `M_score`) and by the inverted
scoring (`R_score`) to either `⌊N/5⌋` or `⌈N/5⌉` customers (the latter
written `(N+4)/5`); ties are broken by arrival order through the
first-method rank, the entry of rank 1 (smallest value, earliest among
ties) scores 5 on the inverted scale and 1 on the direct scale, and the
entry of rank N scores 1 on the inverted scale and 5 on the direct scale. -/
theorem C6_theorem (vs : List ℚ) (s : ℕ) (hN : 5 ≤ vs.length) (hs1 : 1 ≤ s) (hs5 : s ≤ 5) :
    (((Finset.range vs.length).filter (fun i => F_score vs i = s)).card = vs.length / 5 ∨
      ((Finset.range vs.length).filter (fun i => F_score vs i = s)).card
        = (vs.length + 4) / 5) ∧
    (((Finset.range vs.length).filter (fun i => M_score vs i = s)).card = vs.length / 5 ∨
      ((Finset.range vs.length).filter (fun i => M_score vs i = s)).card
        = (vs.length + 4) / 5) ∧
    (((Finset.range vs.length).filter (fun i => R_score vs i = s)).card = vs.length / 5 ∨
      ((Finset.range vs.length).filter (fun i => R_score vs i = s)).card
        = (vs.length + 4) / 5) ∧
    (∀ i < vs.length, rankAt vs i = 1 →
      R_score vs i = 5 ∧ F_score vs i = 1 ∧ M_score vs i = 1) ∧
    (∀ i < vs.length, rankAt vs i = vs.length →
      R_score vs i = 1 ∧ F_score vs i = 5 ∧ M_score vs i = 5) := by
  have h2 : 2 ≤ vs.length := by omega
  refine ⟨card_F_score vs s h2 hs1 hs5, card_M_score vs s h2 hs1 hs5,
    card_R_score vs s h2 hs1 hs5, ?_, ?_⟩
  · intro i hi hr
    rw [R_score_eq, F_score_eq, M_score_eq, hr, qcutBucket_one]
    exact ⟨rfl, rfl, rfl⟩
  · intro i hi hr
    rw [R_score_eq, F_score_eq, M_score_eq, hr, qcutBucket_top vs.length h2]
    exact ⟨rfl, rfl, rfl⟩

/-- A concrete five-entry column with one tie, used to evaluate the scoring
theorems: its first-method ranks are [3, 1, 4, 2, 5]. -/
def vsW : List ℚ := [3, 1, 4, 1, 5]

/-- C6, witness: quintile balance and the extreme-rank scores evaluated on
the concrete column `vsW` at score value 3. -/
theorem C6_witness :
    (((Finset.range vsW.length).filter (fun i => F_score vsW i = 3)).card = vsW.length / 5 ∨
      ((Finset.range vsW.length).filter (fun i => F_score vsW i = 3)).card
        = (vsW.length + 4) / 5) ∧
    (((Finset.range vsW.length).filter (fun i => M_score vsW i = 3)).card = vsW.length / 5 ∨
      ((Finset.range vsW.length).filter (fun i => M_score vsW i = 3)).card
        = (vsW.length + 4) / 5) ∧
    (((Finset.range vsW.length).filter (fun i => R_score vsW i = 3)).card = vsW.length / 5 ∨
      ((Finset.range vsW.length).filter (fun i => R_score vsW i = 3)).card
        = (vsW.length + 4) / 5) ∧
    (∀ i < vsW.length, rankAt vsW i = 1 →
      R_score vsW i = 5 ∧ F_score vsW i = 1 ∧ M_score vsW i = 1) ∧
    (∀ i < vsW.length, rankAt vsW i = vsW.length →
      R_score vsW i = 1 ∧ F_score vsW i = 5 ∧ M_score vsW i = 5) :=
  C6_theorem vsW 3 (by decide) (by decide) (by decide)

/-- C10: scoring is monotone in each metric within one run: an entry with a
strictly larger column value has a direct score (`F_score`, `M_score`) at
least as large and an inverted score (`R_score`) at most as large as an
entry with a smaller value. -/
theorem C10_theorem (vs : List ℚ) (i j : ℕ) (hi : i < vs.length) (hj : j < vs.length)
    (hlt : vs.getD j 0 < vs.getD i 0) :
    F_score vs j ≤ F_score vs i ∧ M_score vs j ≤ M_score vs i ∧
      R_score vs i ≤ R_score vs j := by
  have hk : keyLt vs j i := by
    unfold keyLt
    exact Or.inl hlt
  have hr : rankAt vs j < rankAt vs i := rankAt_lt hj hk
  have hb := qcutBucket_mono vs.length (le_of_lt hr)
  have hb1 := qcutBucket_le vs.length (rankAt vs j)
  have hb2 := qcutBucket_le vs.length (rankAt vs i)
  rw [F_score_eq, F_score_eq, M_score_eq, M_score_eq, R_score_eq, R_score_eq]
  omega

/-- C10, witness: monotonicity evaluated on the concrete column `vsW`
(entry 4 has value 5, entry 0 has value 3). -/
theorem C10_witness :
    F_score vsW 0 ≤ F_score vsW 4 ∧ M_score vsW 0 ≤ M_score vsW 4 ∧
      R_score vsW 4 ≤ R_score vsW 0 :=
  C10_theorem vsW 4 0 (by decide) (by decide) (by decide)

/-- A concrete aggregated table of two customers, both with numeric
recency, fewer than the five the scoring step is claimed to require. -/
def rfm2 : List CustomerRFM :=
  [{ customerId := 1, recency := some 5, frequency := 2, monetary := 10 },
   { customerId := 2, recency := some 3, frequency := 7, monetary := 90 }]

/-- A two-customer table of which only one recency is numeric: the qcut of
the recency ranks sees a single numeric rank and its quantile edges
collapse, so line 51 aborts even though the population has two customers. -/
def rfm1n : List CustomerRFM :=
  [{ customerId := 1, recency := none, frequency := 2, monetary := 10 },
   { customerId := 2, recency := some 3, frequency := 7, monetary := 90 }]

/-- A three-customer table with two numeric recencies and one null one: the
recency qcut of line 51 succeeds (two distinct numeric ranks) but leaves a
`NaN` score on the null row, and line 56's `astype(int)` fails on it. -/
def rfm2n : List CustomerRFM :=
  [{ customerId := 1, recency := none, frequency := 1, monetary := 5 },
   { customerId := 2, recency := some 3, frequency := 7, monetary := 90 },
   { customerId := 3, recency := some 8, frequency := 1, monetary := 2 }]

/-- C2, counterexample: on a population of 2 customers (all recencies
numeric) the scoring step does not abort: it silently succeeds, and its
score columns take fewer than 5 distinct values. -/
theorem C2_counterexample :
    rfm2.length < 5 ∧ (scoreStep rfm2).toOption = some [(1, 1, 1), (5, 5, 5)] ∧
      (dedupFirst (([(1, 1, 1), (5, 5, 5)] : List (ℕ × ℕ × ℕ)).map
        (fun t => t.2.1))).length < 5 := by decide

/-- C2, amended: the scoring step never checks for a five-customer minimum
and never raises a descriptive insufficient-data error.  With at least two
customers, all of numeric (non-null) Recency, the quantile edges are
strictly increasing and scoring silently succeeds even below five
customers, each score column taking at most as many distinct values as
there are customers.  It aborts only on degenerate inputs: with at most one
numeric Recency (which covers populations of size at most one, but can also
occur at two or more customers through NaT-derived null recencies) the
interpolated quantile edges of the numeric recency ranks collapse and
line 51 raises the generic duplicate-bin-edges error; with at least two
numeric Recencies but some null Recency remaining, line 51 succeeds and
line 56's integer conversion fails on the resulting non-finite scores. -/
theorem C2_theorem (rfm : List CustomerRFM) :
    (2 ≤ rfm.length → (∀ c ∈ rfm, c.recency ≠ none) →
      (∀ j < 5, (qcutEdges rfm.length).getD j 0 < (qcutEdges rfm.length).getD (j + 1) 0) ∧
      ∃ l, scoreStep rfm = Except.ok l ∧ l.length = rfm.length ∧
        (dedupFirst (l.map (fun t => t.2.1))).length ≤ rfm.length) ∧
    (numericRecencies rfm ≤ 1 →
      (qcutEdges (numericRecencies rfm)).getD 0 0
          = (qcutEdges (numericRecencies rfm)).getD 1 0 ∧
        scoreStep rfm = Except.error ("Bin edges must be unique")) ∧
    (2 ≤ numericRecencies rfm → (∃ c ∈ rfm, c.recency = none) →
      scoreStep rfm
        = Except.error ("Cannot convert non-finite values (NA or inf) to integer")) := by
  refine ⟨?_, ?_, ?_⟩
  · intro h2 hnn
    have hM := numericRecencies_eq_length hnn
    have hg1 : ¬ (numericRecencies rfm ≤ 1) := by omega
    have hg2 : rfm.any (fun c => c.recency.isNone) = false := by
      rw [List.any_eq_false]
      intro c hc
      simp only [Option.isNone_iff_eq_none]
      exact hnn c hc
    refine ⟨qcutEdges_strictMono rfm.length h2, ?_⟩
    refine ⟨(List.range rfm.length).map (fun i =>
      (R_score (recencyCol rfm) i, F_score (frequencyCol rfm) i,
        M_score (monetaryCol rfm) i)), ?_, ?_, ?_⟩
    · unfold scoreStep
      rw [if_neg hg1, if_neg (by simp [hg2])]
    · rw [List.length_map, List.length_range]
    · calc (dedupFirst _).length ≤ _ := length_dedupFirst_le _
        _ = rfm.length := by rw [List.length_map, List.length_map, List.length_range]
  · intro h1
    refine ⟨qcutEdges_collapse (numericRecencies rfm) h1, ?_⟩
    unfold scoreStep
    rw [if_pos h1]
  · intro hM2 hex
    obtain ⟨c, hc, hcn⟩ := hex
    have hg2 : rfm.any (fun c => c.recency.isNone) = true :=
      List.any_eq_true.mpr ⟨c, hc, by simp [hcn]⟩
    unfold scoreStep
    rw [if_neg (by omega), if_pos (by simp [hg2])]

/-- C2, witness: the amended statement's three branches evaluated on the
concrete tables `rfm2` (all-numeric, silent success below five customers),
`rfm1n` (one numeric recency among two customers, duplicate-edge abort) and
`rfm2n` (two numeric and one null recency, integer-conversion abort). -/
theorem C2_witness :
    ((∀ j < 5, (qcutEdges rfm2.length).getD j 0 < (qcutEdges rfm2.length).getD (j + 1) 0) ∧
      ∃ l, scoreStep rfm2 = Except.ok l ∧ l.length = rfm2.length ∧
        (dedupFirst (l.map (fun t => t.2.1))).length ≤ rfm2.length) ∧
    ((qcutEdges (numericRecencies rfm1n)).getD 0 0
        = (qcutEdges (numericRecencies rfm1n)).getD 1 0 ∧
      scoreStep rfm1n = Except.error ("Bin edges must be unique")) ∧
    scoreStep rfm2n
      = Except.error ("Cannot convert non-finite values (NA or inf) to integer") :=
  ⟨(C2_theorem rfm2).1 (by decide) (by decide),
    (C2_theorem rfm1n).2.1 (by decide),
    (C2_theorem rfm2n).2.2 (by decide)
      ⟨{ customerId := 1, recency := none, frequency := 1, monetary := 5 }, by decide, rfl⟩⟩

end OnlineRetail
